import Mathlib

/-!
Verification development for the DeepThink repository.

The definitions below are shallow embeddings of the TypeScript source:

* `runTransform` and its helpers embed the SSE transform stream of the
  `/api/chat` route (the "Delimiter Reassembler"): the `transform` and
  `flush` callbacks that re-emit a DeepSeek R1 upstream event stream as a
  single text stream with reasoning wrapped in delimiters.
* `parseR1Response` embeds the incremental parser from `src/types/chat.ts`.
* The thread-map operations (`getAncestralContext`, `deleteThreadMap`,
  `createBranch`, `createBranchWithQuery`, `sendMessageRun`) embed the
  corresponding callbacks of `src/contexts/canvas-context.tsx`.

Strings are modelled as `List Char`.  JavaScript string values that the
code only ever tests for truthiness are modelled so that the truthiness
test is preserved (an absent or empty optional string field is `[]`,
since both are falsy in JavaScript).  Wall-clock timestamp fields
(`createdAt`, `updatedAt`, `timestamp`) are omitted from the model: they
are never read by any of the logic the claims are about.
-/

set_option maxRecDepth 10000

namespace DeepThink

/-- The JavaScript whitespace class used by `String.prototype.trim`:
space, tab, LF, VT, FF, CR, NBSP, and the Unicode space/line separators.
(The exotic members are listed for faithfulness; no claim depends on them.) -/
def isJsWs (c : Char) : Bool :=
  let n := c.toNat
  n = 0x09 || n = 0x0A || n = 0x0B || n = 0x0C || n = 0x0D || n = 0x20 ||
  n = 0xA0 || n = 0x1680 || (0x2000 <= n && n <= 0x200A) ||
  n = 0x2028 || n = 0x2029 || n = 0x202F || n = 0x205F || n = 0x3000 ||
  n = 0xFEFF

/-- JavaScript `s.trim()`: drop whitespace from both ends. -/
def jsTrim (s : List Char) : List Char :=
  ((s.dropWhile isJsWs).reverse.dropWhile isJsWs).reverse

/-- JavaScript `buffer.split("\n")` followed by `lines.pop()`, as used by the
chat route's transform callback: the pair of the complete (newline-terminated)
lines and the unterminated remainder. -/
def splitLinesNE : List Char → List (List Char) × List Char
  | [] => ([], [])
  | c :: rest =>
    let pr := splitLinesNE rest
    if c = '\n' then ([] :: pr.1, pr.2)
    else
      match pr.1 with
      | [] => ([], c :: pr.2)
      | l :: ls => ((c :: l) :: ls, pr.2)

/-- The fields of an upstream stream event's `choices[0].delta` that the
transform reads.  `[]` models both an absent field and `""` (the code only
tests truthiness, and both are falsy). -/
structure RDelta where
  reasoningContent : List Char
  content : List Char
deriving DecidableEq, Repr

/-- `choices[0]` of a parsed upstream chunk.  `finish` is the truthiness of
`finish_reason`. -/
structure RChoice where
  delta : RDelta
  finish : Bool
deriving DecidableEq, Repr

/-- The transform's mutable flags: `isInReasoningPhase` and
`hasStartedContent`. -/
structure TFlags where
  inReasoning : Bool
  started : Bool
deriving DecidableEq, Repr

def initFlags : TFlags := ⟨false, false⟩

/-- `encoder.encode("<think>\n")` emitted when reasoning starts. -/
def openEmit : List Char := ("<think>\n").data
/-- `"\n</think>\n\n"` emitted before the first answer text, on a
`finish_reason`, and at flush. -/
def closeEmitMid : List Char := ("\n</think>\n\n").data
/-- `"</think>\n\n"` emitted on the `[DONE]` marker. -/
def closeEmitDone : List Char := ("</think>\n\n").data
/-- The `"data: "` marker that starts an SSE data line. -/
def sseDataTag : List Char := ("data: ").data
/-- The `"[DONE]"` end-of-stream marker. -/
def sseDoneTag : List Char := ("[DONE]").data

/-- The body of the transform's per-event handling, after `JSON.parse`
succeeded and a first choice is present (chat route lines 122-149). -/
def processEvent (fl : TFlags) (ch : RChoice) : TFlags × List Char :=
  -- Handle reasoning_content (DeepSeek R1 Chain of Thought)
  let st1 : TFlags × List Char :=
    if ch.delta.reasoningContent.isEmpty then (fl, [])
    else if fl.inReasoning then (fl, ch.delta.reasoningContent)
    else (⟨true, fl.started⟩, openEmit ++ ch.delta.reasoningContent)
  -- Handle main content
  let st2 : TFlags × List Char :=
    if ch.delta.content.isEmpty then st1
    else if st1.1.inReasoning && !st1.1.started then
      (⟨st1.1.inReasoning, true⟩, st1.2 ++ closeEmitMid ++ ch.delta.content)
    else (st1.1, st1.2 ++ ch.delta.content)
  -- Check for finish: emits a close but updates no state (the source's bug)
  if ch.finish && st2.1.inReasoning && !st2.1.started then
    (st2.1, st2.2 ++ closeEmitMid)
  else st2

/-- One line of the transform's `for (const line of lines)` loop.  The
parameter `p` stands for `JSON.parse` composed with `parsed.choices?.[0]`:
`none` covers both a JSON parse failure (silently skipped) and a chunk
without a first choice. -/
def processLine (p : List Char → Option RChoice) (fl : TFlags) (line : List Char) :
    TFlags × List Char :=
  let trimmed := jsTrim line
  if trimmed.isEmpty || !(sseDataTag.isPrefixOf trimmed) then (fl, [])
  else
    let data := jsTrim (trimmed.drop 6)
    if data = sseDoneTag then
      -- Close the thinking tag if we were in reasoning phase (state unchanged!)
      if fl.inReasoning && !fl.started then (fl, closeEmitDone) else (fl, [])
    else
      match p data with
      | none => (fl, [])
      | some ch => processEvent fl ch

/-- Fold `processLine` over the complete lines of a chunk, concatenating the
emitted output. -/
def processLines (p : List Char → Option RChoice) (fl : TFlags)
    (lines : List (List Char)) : TFlags × List Char :=
  lines.foldl (fun st l =>
    let r := processLine p st.1 l
    (r.1, st.2 ++ r.2)) (fl, [])

/-- The transform stream's state between chunks: the two flags plus the
buffered unterminated remainder. -/
structure TState where
  flags : TFlags
  buffer : List Char
deriving DecidableEq, Repr

def initTState : TState := ⟨initFlags, []⟩

/-- The `transform(chunk, controller)` callback (chat route lines 94-155):
append the chunk to the buffer, split into lines, keep the last (possibly
incomplete) line buffered, and process the complete lines. -/
def transformChunk (p : List Char → Option RChoice) (st : TState)
    (chunk : List Char) : TState × List Char :=
  let buf := st.buffer ++ chunk
  let pr := splitLinesNE buf
  let r := processLines p st.flags pr.1
  (⟨r.1, pr.2⟩, r.2)

/-- The `flush(controller)` callback (chat route lines 156-179): best-effort
decode of a trailing unterminated record (only its answer text is emitted),
then close any open think tag. -/
def flushStep (p : List Char → Option RChoice) (st : TState) : List Char :=
  let fromBuffer :=
    if (jsTrim st.buffer).isEmpty then []
    else
      let trimmed := jsTrim st.buffer
      if sseDataTag.isPrefixOf trimmed then
        let data := jsTrim (trimmed.drop 6)
        if data = sseDoneTag then []
        else
          match p data with
          | none => []
          | some ch => if ch.delta.content.isEmpty then [] else ch.delta.content
      else []
  fromBuffer ++ (if st.flags.inReasoning && !st.flags.started then closeEmitMid else [])

/-- Process a list of chunks through the transform, threading state and
concatenating outputs. -/
def runChunks (p : List Char → Option RChoice) (st : TState) :
    List (List Char) → TState × List Char
  | [] => (st, [])
  | c :: cs =>
    let r := transformChunk p st c
    let rest := runChunks p r.1 cs
    (rest.1, r.2 ++ rest.2)

/-- The whole response stream: all chunks through `transform`, then `flush`
at end of stream. -/
def runTransform (p : List Char → Option RChoice) (chunks : List (List Char)) :
    List Char :=
  let r := runChunks p initTState chunks
  r.2 ++ flushStep p r.1

/-- Count the positions at which `pat` occurs in a string.  For the two
delimiter tags this equals the number of (necessarily non-overlapping)
occurrences: a tag contains `<` only at its first position. -/
def countTagOcc (pat : List Char) : List Char → Nat
  | [] => 0
  | c :: rest => (if pat.isPrefixOf (c :: rest) then 1 else 0) + countTagOcc pat rest

/-- Number of `"<think>"` occurrences. -/
def countOpenTag (s : List Char) : Nat := countTagOcc (("<think>").data) s

/-- Number of `"</think>"` occurrences. -/
def countCloseTag (s : List Char) : Nat := countTagOcc (("</think>").data) s

/-! ### Chunk-splitting invariance of the transform (C2) -/

theorem splitLinesNE_cons_nl (rest : List Char) :
    splitLinesNE ('\n' :: rest) = ([] :: (splitLinesNE rest).1, (splitLinesNE rest).2) := by
  simp [splitLinesNE]

theorem splitLinesNE_cons_ne {c : Char} (hc : c ≠ '\n') (rest : List Char) :
    splitLinesNE (c :: rest) =
      (match (splitLinesNE rest).1 with
       | [] => ([], c :: (splitLinesNE rest).2)
       | l :: ls => ((c :: l) :: ls, (splitLinesNE rest).2)) := by
  simp [splitLinesNE, hc]

theorem splitLinesNE_append (xs ys : List Char) :
    splitLinesNE (xs ++ ys) =
      ((splitLinesNE xs).1 ++ (splitLinesNE ((splitLinesNE xs).2 ++ ys)).1,
       (splitLinesNE ((splitLinesNE xs).2 ++ ys)).2) := by
  induction xs with
  | nil => simp [splitLinesNE]
  | cons c rest ih =>
    by_cases hc : c = '\n'
    · subst hc
      rw [List.cons_append, splitLinesNE_cons_nl, splitLinesNE_cons_nl, ih]
      simp
    · cases h : (splitLinesNE rest).1 with
      | nil =>
        have hsc : splitLinesNE (c :: rest) = ([], c :: (splitLinesNE rest).2) := by
          rw [splitLinesNE_cons_ne hc, h]
        rw [List.cons_append, splitLinesNE_cons_ne hc, ih, h, hsc]
        simp only [List.nil_append, List.cons_append]
        rw [splitLinesNE_cons_ne hc]
      | cons l ls =>
        have hsc : splitLinesNE (c :: rest) = ((c :: l) :: ls, (splitLinesNE rest).2) := by
          rw [splitLinesNE_cons_ne hc, h]
        rw [List.cons_append, splitLinesNE_cons_ne hc, ih, h, hsc]
        simp

theorem processLines_shift (p : List Char → Option RChoice) :
    ∀ (ls : List (List Char)) (fl : TFlags) (out : List Char),
      ls.foldl (fun st l => let r := processLine p st.1 l; (r.1, st.2 ++ r.2)) (fl, out)
        = ((processLines p fl ls).1, out ++ (processLines p fl ls).2) := by
  intro ls
  induction ls with
  | nil => intro fl out; simp [processLines]
  | cons l ls ih =>
    intro fl out
    simp only [processLines, List.foldl_cons, List.nil_append] at ih ⊢
    rw [ih, ih ((processLine p fl l).1) ((processLine p fl l).2)]
    simp [List.append_assoc]

theorem processLines_append (p : List Char → Option RChoice) (fl : TFlags)
    (l₁ l₂ : List (List Char)) :
    processLines p fl (l₁ ++ l₂) =
      ((processLines p (processLines p fl l₁).1 l₂).1,
       (processLines p fl l₁).2 ++ (processLines p (processLines p fl l₁).1 l₂).2) := by
  have h1 : processLines p fl (l₁ ++ l₂)
      = (l₁ ++ l₂).foldl (fun st l => let r := processLine p st.1 l; (r.1, st.2 ++ r.2))
          (fl, []) := rfl
  rw [h1, List.foldl_append]
  have h2 : (l₁.foldl (fun st l => let r := processLine p st.1 l; (r.1, st.2 ++ r.2)) (fl, []))
      = ((processLines p fl l₁).1, (processLines p fl l₁).2) := by
    rw [Prod.mk.eta]; rfl
  rw [h2, processLines_shift]

theorem transformChunk_append (p : List Char → Option RChoice) (st : TState)
    (a b : List Char) :
    transformChunk p st (a ++ b) =
      ((transformChunk p (transformChunk p st a).1 b).1,
       (transformChunk p st a).2 ++ (transformChunk p (transformChunk p st a).1 b).2) := by
  simp only [transformChunk]
  rw [show st.buffer ++ (a ++ b) = (st.buffer ++ a) ++ b from (List.append_assoc _ _ _).symm]
  rw [splitLinesNE_append (st.buffer ++ a) b, processLines_append]

theorem runChunks_join (p : List Char → Option RChoice) (st : TState)
    (c : List Char) (cs : List (List Char)) :
    runChunks p st (c :: cs) =
      ((transformChunk p st (c ++ cs.flatten)).1,
       (transformChunk p st (c ++ cs.flatten)).2) := by
  induction cs generalizing st c with
  | nil => simp [runChunks]
  | cons d ds ih =>
    have step : runChunks p st (c :: d :: ds) =
        ((runChunks p (transformChunk p st c).1 (d :: ds)).1,
         (transformChunk p st c).2 ++
           (runChunks p (transformChunk p st c).1 (d :: ds)).2) := rfl
    rw [step, ih (transformChunk p st c).1 d]
    have hj : c ++ (d :: ds).flatten = c ++ (d ++ ds.flatten) := rfl
    rw [hj, transformChunk_append p st c (d ++ ds.flatten)]

/-- Claim C2: for every upstream byte sequence and every partition of it into
chunks — including partitions that split an SSE record mid-line — the
concatenated output of the transform stream (including its flush) equals the
output produced when the same bytes arrive as one single chunk.  The theorem
holds for an arbitrary record decoder `p` (standing for `JSON.parse` plus
choice extraction), so it covers every possible upstream event sequence. -/
theorem chunk_splitting_invariant (p : List Char → Option RChoice)
    (chunks : List (List Char)) :
    runTransform p chunks = runTransform p [chunks.flatten] := by
  cases chunks with
  | nil => rfl
  | cons c cs =>
    simp only [runTransform]
    rw [runChunks_join p initTState c cs]
    have h1 : runChunks p initTState [(c :: cs).flatten] =
        ((transformChunk p initTState ((c :: cs).flatten ++ List.flatten
            (α := Char) [])).1,
         (transformChunk p initTState ((c :: cs).flatten ++ List.flatten
            (α := Char) [])).2) :=
      runChunks_join p initTState ((c :: cs).flatten) []
    rw [h1]
    have h2 : (c :: cs).flatten ++ List.flatten (α := Char) [] = c ++ cs.flatten := by
      simp
    rw [h2]

/-! ### A reasoning-only response emits more than one closing delimiter (C1) -/

/-- The JSON text of an upstream chunk carrying a single reasoning delta
`"foo"` (braces written as escapes). -/
def c1ReasoningJson : List Char :=
  ("\x7b\"choices\":[\x7b\"index\":0,\"delta\":\x7b\"reasoning_content\":\"foo\"\x7d,\"finish_reason\":null\x7d]\x7d").data

/-- The JSON text of an upstream chunk carrying only `finish_reason:"stop"`. -/
def c1FinishJson : List Char :=
  ("\x7b\"choices\":[\x7b\"index\":0,\"delta\":\x7b\x7d,\"finish_reason\":\"stop\"\x7d]\x7d").data

/-- `JSON.parse` + first-choice extraction on the two records of the C1
scenario: the reasoning record yields a reasoning delta, the finish record a
truthy finish_reason. -/
def c1Decode (s : List Char) : Option RChoice :=
  if s = c1ReasoningJson then some ⟨⟨("foo").data, []⟩, false⟩
  else if s = c1FinishJson then some ⟨⟨[], []⟩, true⟩
  else none

/-- The full upstream byte stream of the scenario, as one chunk: a reasoning
delta, then a finish_reason event, then the `[DONE]` marker, then end of
stream. -/
def c1Chunk : List Char :=
  sseDataTag ++ c1ReasoningJson ++ ['\n'] ++
  sseDataTag ++ c1FinishJson ++ ['\n'] ++
  ("data: [DONE]\n").data

/-- Claim C1 (code bug evaluation): for a response whose reasoning deltas are
followed by a finish_reason event and the `[DONE]` marker but no answer
delta, the transform emits ONE opening delimiter but THREE closing
delimiters — one at the finish_reason event, one at `[DONE]`, and one at
flush — because none of those paths records that the tag was already closed
(`hasStartedContent` stays false and `isInReasoningPhase` stays true).  This
refutes the claim that exactly one closing delimiter is emitted. -/
theorem c1_reasoning_only_emits_three_closers :
    runTransform c1Decode [c1Chunk]
        = ("<think>\nfoo\n</think>\n\n</think>\n\n\n</think>\n\n").data ∧
    countOpenTag (runTransform c1Decode [c1Chunk]) = 1 ∧
    countCloseTag (runTransform c1Decode [c1Chunk]) = 3 := by
  refine ⟨?_, ?_, ?_⟩ <;> decide

/-! ### The Incremental Response Parser: `parseR1Response` (src/types/chat.ts) -/

/-- Case-insensitive comparison of an input char `c` against a lowercase
pattern char `p`, as performed by the non-unicode `i` regex flag (ASCII-only
canonicalisation). -/
def ciCharEq (p c : Char) : Bool :=
  c == p || (('a' ≤ p && p ≤ 'z') && c.toNat == p.toNat - 32)

/-- Case-insensitive prefix test of a (lowercase) pattern. -/
def ciMatchTag : List Char → List Char → Bool
  | [], _ => true
  | _ :: _, [] => false
  | p :: ps, c :: cs => ciCharEq p c && ciMatchTag ps cs

/-- The opening delimiter looked for by the regex
`/<think>([\s\S]*?)<\/think>/gi`. -/
def thinkOpen : List Char := ['<', 't', 'h', 'i', 'n', 'k', '>']
/-- The closing delimiter of the same regex. -/
def thinkClose : List Char := ['<', '/', 't', 'h', 'i', 'n', 'k', '>']

/-- Find the first (case-insensitive) occurrence of `"</think>"`:
`some (before, after)` splits the string around it; `none` when absent.
This is the lazy `[\s\S]*?` search of the regex. -/
def splitAtClose : List Char → Option (List Char × List Char)
  | [] => none
  | c :: rest =>
    if ciMatchTag thinkClose (c :: rest) then some ([], (c :: rest).drop 8)
    else
      match splitAtClose rest with
      | some pr => some (c :: pr.1, pr.2)
      | none => none

theorem splitAtClose_length :
    ∀ {s : List Char} {pr : List Char × List Char},
      splitAtClose s = some pr → pr.2.length < s.length := by
  intro s
  induction s with
  | nil => intro pr h; simp [splitAtClose] at h
  | cons c rest ih =>
    intro pr h
    by_cases hm : ciMatchTag thinkClose (c :: rest) = true
    · simp only [splitAtClose, if_pos hm] at h
      cases h
      simp only [List.drop_succ_cons, List.length_cons, List.length_drop]
      omega
    · simp only [splitAtClose, if_neg hm] at h
      cases h' : splitAtClose rest with
      | none => rw [h'] at h; cases h
      | some pr' =>
        rw [h'] at h
        cases h
        have := ih h'
        simp only [List.length_cons]
        omega

/-- The matching loop of `parseR1Response`, fuel-indexed so that it is
structurally recursive (the wrapper `scanThink` supplies sufficient fuel):
returns the inner texts of all complete `<think>...</think>` spans in order,
and the text outside the spans (what `replace(thinkRegex, '')` keeps).
A `<think>` with no later `</think>` matches nothing: the regex cannot match
there nor at any later position, so the rest is kept verbatim. -/
def scanThinkF : Nat → List Char → List (List Char) × List Char
  | _, [] => ([], [])
  | 0, s => ([], s)
  | fuel + 1, c :: rest =>
    if ciMatchTag thinkOpen (c :: rest) then
      match splitAtClose ((c :: rest).drop 7) with
      | some pr =>
        let r := scanThinkF fuel pr.2
        (pr.1 :: r.1, r.2)
      | none => ([], c :: rest)
    else
      let r := scanThinkF fuel rest
      (r.1, c :: r.2)

theorem scanThinkF_nil (f : Nat) : scanThinkF f [] = ([], []) := by
  cases f <;> rfl

theorem scanThinkF_irrel :
    ∀ (f₁ : Nat) (s : List Char) (f₂ : Nat), s.length ≤ f₁ → s.length ≤ f₂ →
      scanThinkF f₁ s = scanThinkF f₂ s := by
  intro f₁
  induction f₁ with
  | zero =>
    intro s f₂ h1 _
    have : s = [] := List.eq_nil_of_length_eq_zero (Nat.le_zero.mp h1)
    subst this
    rw [scanThinkF_nil, scanThinkF_nil]
  | succ g ih =>
    intro s f₂ h1 h2
    cases s with
    | nil => rw [scanThinkF_nil, scanThinkF_nil]
    | cons c rest =>
      simp only [List.length_cons] at h1 h2
      obtain ⟨g₂, rfl⟩ : ∃ g₂, f₂ = g₂ + 1 := ⟨f₂ - 1, by omega⟩
      show scanThinkF (g + 1) (c :: rest) = scanThinkF (g₂ + 1) (c :: rest)
      simp only [scanThinkF]
      by_cases hm : ciMatchTag thinkOpen (c :: rest) = true
      · simp only [if_pos hm]
        cases h' : splitAtClose ((c :: rest).drop 7) with
        | none => rfl
        | some pr =>
          dsimp only
          have hlen := splitAtClose_length h'
          simp only [List.length_drop, List.length_cons] at hlen
          rw [ih pr.2 g₂ (by omega) (by omega)]
      · simp only [if_neg hm]
        rw [ih rest g₂ (by omega) (by omega)]

/-- The span scan of `parseR1Response`: all complete delimited spans plus the
text outside them. -/
def scanThink (s : List Char) : List (List Char) × List Char :=
  scanThinkF s.length s

/-- One-step unfolding of `scanThink`. -/
theorem scanThink_cons (c : Char) (rest : List Char) :
    scanThink (c :: rest) =
      (if ciMatchTag thinkOpen (c :: rest) then
        match splitAtClose ((c :: rest).drop 7) with
        | some pr =>
          ((pr.1 :: (scanThink pr.2).1), (scanThink pr.2).2)
        | none => ([], c :: rest)
      else
        ((scanThink rest).1, c :: (scanThink rest).2)) := by
  show scanThinkF (rest.length + 1) (c :: rest) = _
  simp only [scanThinkF, scanThink]
  by_cases hm : ciMatchTag thinkOpen (c :: rest) = true
  · simp only [if_pos hm]
    cases h' : splitAtClose ((c :: rest).drop 7) with
    | none => rfl
    | some pr =>
      dsimp only
      have hlen := splitAtClose_length h'
      simp only [List.length_drop, List.length_cons] at hlen
      rw [scanThinkF_irrel rest.length pr.2 pr.2.length (by omega) (by omega)]
  · simp only [if_neg hm]

/-- `thinkMatches.join('\n\n')`. -/
def joinBlank : List (List Char) → List Char
  | [] => []
  | [x] => x
  | x :: y :: xs => x ++ ("\n\n").data ++ joinBlank (y :: xs)

/-- Result type of `parseR1Response` (`thoughts` undefined ⇔ `none`). -/
structure ParsedResponse where
  thoughts : Option (List Char)
  content : List Char
deriving DecidableEq, Repr

/-- `parseR1Response` from `src/types/chat.ts`: extract all complete
`<think>...</think>` spans (each trimmed, joined with a blank line), remove
them from the content, and trim the rest; no span ⇒ `thoughts` undefined. -/
def parseR1Response (raw : List Char) : ParsedResponse :=
  let pr := scanThink raw
  ⟨if pr.1.isEmpty then none else some (joinBlank (pr.1.map jsTrim)),
   jsTrim pr.2⟩

/-! ### Span-extraction lemmas for C6 and C10 -/

theorem ciCharEq_of_nolower {p : Char} (hp : ¬ ('a' ≤ p ∧ p ≤ 'z')) (c : Char) :
    ciCharEq p c = (c == p) := by
  by_cases h1 : 'a' ≤ p
  · by_cases h2 : p ≤ 'z'
    · exact absurd ⟨h1, h2⟩ hp
    · simp [ciCharEq, h1, h2]
  · simp [ciCharEq, h1]

theorem ciMatchTag_open_false {c : Char} (hc : c ≠ '<') (x : List Char) :
    ciMatchTag thinkOpen (c :: x) = false := by
  show (ciCharEq '<' c && ciMatchTag ['t', 'h', 'i', 'n', 'k', '>'] x) = false
  rw [ciCharEq_of_nolower (by decide) c]
  have : (c == '<') = false := by
    simp [hc]
  rw [this, Bool.false_and]

theorem ciMatchTag_close_false {c : Char} (hc : c ≠ '<') (x : List Char) :
    ciMatchTag thinkClose (c :: x) = false := by
  show (ciCharEq '<' c && ciMatchTag ['/', 't', 'h', 'i', 'n', 'k', '>'] x) = false
  rw [ciCharEq_of_nolower (by decide) c]
  have : (c == '<') = false := by
    simp [hc]
  rw [this, Bool.false_and]

theorem ciMatchTag_self_close (x : List Char) :
    ciMatchTag thinkClose (thinkClose ++ x) = true := by
  show ciMatchTag thinkClose ('<' :: '/' :: 't' :: 'h' :: 'i' :: 'n' :: 'k' :: '>' :: x) = true
  simp [thinkClose, ciMatchTag, ciCharEq]

theorem ciMatchTag_self_open (x : List Char) :
    ciMatchTag thinkOpen (thinkOpen ++ x) = true := by
  show ciMatchTag thinkOpen ('<' :: 't' :: 'h' :: 'i' :: 'n' :: 'k' :: '>' :: x) = true
  simp [thinkOpen, ciMatchTag, ciCharEq]

theorem splitAtClose_none_tail {c : Char} {rest : List Char}
    (h : splitAtClose (c :: rest) = none) : splitAtClose rest = none := by
  by_cases hm : ciMatchTag thinkClose (c :: rest) = true
  · simp [splitAtClose, hm] at h
  · simp only [splitAtClose, if_neg hm] at h
    cases h' : splitAtClose rest with
    | none => rfl
    | some pr => rw [h'] at h; cases h

theorem splitAtClose_none_drop {s : List Char} (h : splitAtClose s = none) :
    ∀ n, splitAtClose (s.drop n) = none := by
  induction s with
  | nil => intro n; simp [splitAtClose]
  | cons c rest ih =>
    intro n
    cases n with
    | zero => exact h
    | succ m =>
      rw [List.drop_succ_cons]
      exact ih (splitAtClose_none_tail h) m

theorem splitAtClose_of_no_lt {s : List Char} (hs : ∀ c ∈ s, c ≠ '<') :
    splitAtClose s = none := by
  induction s with
  | nil => rfl
  | cons c rest ih =>
    have hm := ciMatchTag_close_false (hs c (by simp)) rest
    simp only [splitAtClose, hm, Bool.false_eq_true, if_false]
    rw [ih (fun d hd => hs d (by simp [hd]))]

theorem scanThink_no_close : ∀ {s : List Char}, splitAtClose s = none →
    scanThink s = ([], s) := by
  intro s
  induction s with
  | nil => intro _; rfl
  | cons c rest ih =>
    intro h
    rw [scanThink_cons]
    by_cases hm : ciMatchTag thinkOpen (c :: rest) = true
    · simp only [if_pos hm]
      rw [splitAtClose_none_drop h 7]
    · simp only [if_neg hm]
      rw [ih (splitAtClose_none_tail h)]

theorem scanThink_outside {a : List Char} (ha : ∀ c ∈ a, c ≠ '<') (x : List Char) :
    scanThink (a ++ x) = ((scanThink x).1, a ++ (scanThink x).2) := by
  induction a with
  | nil => simp
  | cons c a' ih =>
    rw [List.cons_append, scanThink_cons]
    have hm := ciMatchTag_open_false (ha c (by simp)) (a' ++ x)
    simp only [hm, Bool.false_eq_true, if_false]
    rw [ih (fun d hd => ha d (by simp [hd]))]
    simp

theorem splitAtClose_chunk {b : List Char} (hb : ∀ c ∈ b, c ≠ '<') (rest : List Char) :
    splitAtClose (b ++ (thinkClose ++ rest)) = some (b, rest) := by
  induction b with
  | nil =>
    rw [List.nil_append]
    show splitAtClose ('<' :: ('/' :: 't' :: 'h' :: 'i' :: 'n' :: 'k' :: '>' :: rest)) = _
    have hm : ciMatchTag thinkClose
        ('<' :: ('/' :: 't' :: 'h' :: 'i' :: 'n' :: 'k' :: '>' :: rest)) = true :=
      ciMatchTag_self_close rest
    simp only [splitAtClose, hm, if_true]
    rfl
  | cons c b' ih =>
    rw [List.cons_append]
    have hm := ciMatchTag_close_false (hb c (by simp)) (b' ++ (thinkClose ++ rest))
    simp only [splitAtClose, hm, Bool.false_eq_true, if_false]
    rw [ih (fun d hd => hb d (by simp [hd]))]

theorem splitAtClose_cons (c : Char) (rest : List Char) :
    splitAtClose (c :: rest) =
      (if ciMatchTag thinkClose (c :: rest) = true then some ([], (c :: rest).drop 8)
       else
        match splitAtClose rest with
        | some pr => some (c :: pr.1, pr.2)
        | none => none) := rfl

theorem splitAtClose_open_chunk {a b : List Char}
    (ha : ∀ c ∈ a, c ≠ '<') (hb : ∀ c ∈ b, c ≠ '<') :
    splitAtClose (a ++ (thinkOpen ++ b)) = none := by
  induction a with
  | nil =>
    rw [List.nil_append]
    show splitAtClose ('<' :: ('t' :: 'h' :: 'i' :: 'n' :: 'k' :: '>' :: b)) = none
    have hm : ciMatchTag thinkClose ('<' :: ('t' :: 'h' :: 'i' :: 'n' :: 'k' :: '>' :: b))
        = false := by
      show (ciCharEq '<' '<' &&
        (ciCharEq '/' 't' && ciMatchTag ['t', 'h', 'i', 'n', 'k', '>']
          ('h' :: 'i' :: 'n' :: 'k' :: '>' :: b))) = false
      have h2 : ciCharEq '/' 't' = false := by decide
      rw [h2]
      simp
    have htail : splitAtClose ('t' :: 'h' :: 'i' :: 'n' :: 'k' :: '>' :: b) = none := by
      apply splitAtClose_of_no_lt
      intro d hd
      simp only [List.mem_cons] at hd
      rcases hd with h | h | h | h | h | h | h
      · subst h; decide
      · subst h; decide
      · subst h; decide
      · subst h; decide
      · subst h; decide
      · subst h; decide
      · exact hb d h
    rw [splitAtClose_cons, if_neg (by rw [hm]; exact Bool.false_ne_true), htail]
  | cons c a' ih =>
    rw [List.cons_append]
    have hm := ciMatchTag_close_false (ha c (by simp)) (a' ++ (thinkOpen ++ b))
    rw [splitAtClose_cons, if_neg (by rw [hm]; exact Bool.false_ne_true),
      ih (fun d hd => ha d (by simp [hd]))]

theorem scanThink_span {a b : List Char}
    (ha : ∀ c ∈ a, c ≠ '<') (hb : ∀ c ∈ b, c ≠ '<') (rest : List Char) :
    scanThink (a ++ (thinkOpen ++ (b ++ (thinkClose ++ rest))))
      = ((b :: (scanThink rest).1), a ++ (scanThink rest).2) := by
  rw [scanThink_outside ha]
  have hrw : thinkOpen ++ (b ++ (thinkClose ++ rest))
      = '<' :: ('t' :: 'h' :: 'i' :: 'n' :: 'k' :: '>' :: (b ++ (thinkClose ++ rest))) := rfl
  rw [hrw, scanThink_cons]
  have hm : ciMatchTag thinkOpen
      ('<' :: 't' :: 'h' :: 'i' :: 'n' :: 'k' :: '>' :: (b ++ (thinkClose ++ rest))) = true :=
    ciMatchTag_self_open (b ++ (thinkClose ++ rest))
  simp only [hm, if_true]
  have hdrop : List.drop 7
      ('<' :: 't' :: 'h' :: 'i' :: 'n' :: 'k' :: '>' :: (b ++ (thinkClose ++ rest)))
      = b ++ (thinkClose ++ rest) := rfl
  rw [hdrop, splitAtClose_chunk hb rest]

/-- Does the buffer contain a (case-insensitive) `"<think>"` anywhere? -/
def hasOpenTag : List Char → Bool
  | [] => false
  | c :: rest => ciMatchTag thinkOpen (c :: rest) || hasOpenTag rest

/-- Claim C6: for every cumulative buffer, `parseR1Response` returns
`thoughts` equal to the concatenation of the inner texts of all complete
`<think>...</think>` spans (each trimmed, joined with a blank line) and
`content` equal to the text outside those spans, trimmed; when no complete
span is present (`"</think>"` occurs nowhere, hypothesis `hs`), `thoughts`
is undefined and `content` is the whole trimmed buffer.  The second
conjunct shows the span extraction is the expected one on an arbitrary
decomposition `a ++ "<think>" ++ b ++ "</think>" ++ rest`. -/
theorem c6_parse_extracts_spans (s : List Char) (hs : splitAtClose s = none)
    (a b rest : List Char) (ha : ∀ c ∈ a, c ≠ '<') (hb : ∀ c ∈ b, c ≠ '<') :
    ((parseR1Response s).thoughts = none ∧ (parseR1Response s).content = jsTrim s) ∧
    scanThink (a ++ (thinkOpen ++ (b ++ (thinkClose ++ rest))))
      = ((b :: (scanThink rest).1), a ++ (scanThink rest).2) ∧
    (∀ t : List Char,
      (parseR1Response t).thoughts
          = (if (scanThink t).1.isEmpty then none
             else some (joinBlank ((scanThink t).1.map jsTrim))) ∧
      (parseR1Response t).content = jsTrim (scanThink t).2) := by
  refine ⟨⟨?_, ?_⟩, scanThink_span ha hb rest, fun t => ⟨rfl, rfl⟩⟩
  · simp [parseR1Response, scanThink_no_close hs]
  · simp [parseR1Response, scanThink_no_close hs]

/-- Witness for C6 at a concrete buffer and span decomposition. -/
theorem c6_parse_extracts_spans_witness :
    (splitAtClose (("<think> no close yet").data) = none ∧
     (∀ c ∈ ("pre ").data, c ≠ '<') ∧ (∀ c ∈ (" inner ").data, c ≠ '<')) ∧
    (((parseR1Response (("<think> no close yet").data)).thoughts = none ∧
      (parseR1Response (("<think> no close yet").data)).content
        = jsTrim (("<think> no close yet").data)) ∧
     scanThink ((("pre ").data) ++ (thinkOpen ++ (((" inner ").data) ++
         (thinkClose ++ ((" post").data)))))
       = (((" inner ").data :: (scanThink ((" post").data)).1),
          (("pre ").data) ++ (scanThink ((" post").data)).2) ∧
     (∀ t : List Char,
       (parseR1Response t).thoughts
           = (if (scanThink t).1.isEmpty then none
              else some (joinBlank ((scanThink t).1.map jsTrim))) ∧
       (parseR1Response t).content = jsTrim (scanThink t).2)) :=
  ⟨⟨by decide, by decide, by decide⟩,
   c6_parse_extracts_spans (("<think> no close yet").data) (by decide)
     (("pre ").data) ((" inner ").data) ((" post").data) (by decide) (by decide)⟩

/-- Claim C10: while a reasoning span is still open (the buffer contains
`"<think>"` but `"</think>"` occurs nowhere), `parseR1Response` returns
`thoughts` undefined and keeps the partial reasoning text — including the
`"<think>"` marker itself — inside `content`; once the closing delimiter
arrives in a later cumulative buffer the text is reclassified into
`thoughts` (third conjunct). -/
theorem c10_open_span_stays_in_content (s : List Char)
    (hopen : hasOpenTag s = true) (hclose : splitAtClose s = none)
    (a b : List Char) (ha : ∀ c ∈ a, c ≠ '<') (hb : ∀ c ∈ b, c ≠ '<') :
    ((parseR1Response s).thoughts = none ∧ (parseR1Response s).content = jsTrim s) ∧
    parseR1Response (a ++ (thinkOpen ++ b)) = ⟨none, jsTrim (a ++ (thinkOpen ++ b))⟩ ∧
    parseR1Response (a ++ (thinkOpen ++ (b ++ thinkClose)))
      = ⟨some (jsTrim b), jsTrim a⟩ := by
  refine ⟨⟨?_, ?_⟩, ?_, ?_⟩
  · simp [parseR1Response, scanThink_no_close hclose]
  · simp [parseR1Response, scanThink_no_close hclose]
  · have hnone : splitAtClose (a ++ (thinkOpen ++ b)) = none :=
      splitAtClose_open_chunk ha hb
    simp [parseR1Response, scanThink_no_close hnone]
  · have hspan := scanThink_span ha hb ([] : List Char)
    rw [show b ++ (thinkClose ++ ([] : List Char)) = b ++ thinkClose by simp] at hspan
    simp only [parseR1Response, hspan]
    show ParsedResponse.mk _ _ = _
    simp [scanThink, scanThinkF, joinBlank]

/-- Witness for C10 at a concrete partially-streamed buffer. -/
theorem c10_open_span_stays_in_content_witness :
    (hasOpenTag (("before <think> partial reasoning").data) = true ∧
     splitAtClose (("before <think> partial reasoning").data) = none ∧
     (∀ c ∈ ("ans ").data, c ≠ '<') ∧ (∀ c ∈ (" deep thought ").data, c ≠ '<')) ∧
    (((parseR1Response (("before <think> partial reasoning").data)).thoughts = none ∧
      (parseR1Response (("before <think> partial reasoning").data)).content
        = jsTrim (("before <think> partial reasoning").data)) ∧
     parseR1Response ((("ans ").data) ++ (thinkOpen ++ ((" deep thought ").data)))
       = ⟨none, jsTrim ((("ans ").data) ++ (thinkOpen ++ ((" deep thought ").data)))⟩ ∧
     parseR1Response ((("ans ").data) ++ (thinkOpen ++ (((" deep thought ").data) ++
         thinkClose)))
       = ⟨some (jsTrim ((" deep thought ").data)), jsTrim (("ans ").data)⟩) :=
  ⟨⟨by decide, by decide, by decide, by decide⟩,
   c10_open_span_stays_in_content (("before <think> partial reasoning").data)
     (by decide) (by decide) (("ans ").data) ((" deep thought ").data)
     (by decide) (by decide)⟩

/-! ### The conversation tree (src/contexts/canvas-context.tsx) -/

inductive Role
  | user
  | assistant
deriving DecidableEq, Repr

/-- A chat message (`Message` of `src/types/chat.ts`); the wall-clock
`timestamp` field is omitted. -/
structure Msg where
  id : String
  role : Role
  content : List Char
  thoughts : Option (List Char)
deriving DecidableEq, Repr

/-- A thread (`ThreadNode` of `src/types/canvas.ts`); `createdAt`/`updatedAt`
are omitted. -/
structure ThreadNode where
  id : String
  messages : List Msg
  parentId : Option String
  parentMessageId : Option String
  title : List Char
deriving DecidableEq, Repr

/-- The `Map<string, ThreadNode>` in insertion order (JavaScript `Map`
iteration follows insertion order; keys are the thread ids). -/
abbrev ThreadMap := List ThreadNode

/-- `threadsMap.get(id)`. -/
def lookupThread (tm : ThreadMap) (threadId : String) : Option ThreadNode :=
  tm.find? (fun t => t.id == threadId)

/-- The leading character of synthetic branch-welcome messages (the herb
emoji the source writes at the start of `branchWelcome.content`). -/
def branchMarker : List Char := ("🌿").data

/-- `message.role === "assistant" && message.content.startsWith("🌿")`. -/
def isBranchWelcome (m : Msg) : Bool :=
  m.role == Role.assistant && branchMarker.isPrefixOf m.content

/-- A `{role, content}` pair of the upstream request payload. -/
structure CtxMsg where
  role : Role
  content : List Char
deriving DecidableEq, Repr

/-- The upward ancestor walk of `getAncestralContext` (lines 554-564):
`while (currentThread?.parentId) { ... }`, `unshift`-ing each parent.  The
source loop has NO depth bound or visited set, so it is fuel-indexed here:
`none` means the loop has not exited within `fuel` iterations.  When a
parent reference cannot be resolved the loop `break`s silently, returning
the chain built so far. -/
def buildChainAux (tm : ThreadMap) : Nat → ThreadNode → List ThreadNode →
    Option (List ThreadNode)
  | 0, _, _ => none
  | fuel + 1, cur, acc =>
    match cur.parentId with
    | none => some acc
    | some pid =>
      match lookupThread tm pid with
      | none => some acc
      | some parentThread => buildChainAux tm fuel parentThread (parentThread :: acc)

/-- The ancestor chain of a thread, root first. -/
def buildChain (tm : ThreadMap) (fuel : Nat) (threadId : String) :
    Option (List ThreadNode) :=
  match lookupThread tm threadId with
  | none => some []
  | some t => buildChainAux tm fuel t []

/-- The first thread in map order whose `parentId` is `pid` — the child the
source's inner `for (const [, t] of threadsMap)` loop picks (it takes the
FIRST child found and breaks, regardless of whether it leads to the
target). -/
def firstChildOf (tm : ThreadMap) (pid : String) : Option ThreadNode :=
  tm.find? (fun t => t.parentId == some pid)

/-- The source's downward walk `while (checkThread)` (lines 578-593): does
following first-child links from `check` reach `targetId`?  Fuel-indexed:
the source loop is unbounded, but on forests `tm.length + 1` steps are
exact. -/
def walkReaches (tm : ThreadMap) (targetId : String) : Nat → ThreadNode → Bool
  | 0, _ => false
  | fuel + 1, check =>
    if check.id == targetId then true
    else
      match firstChildOf tm check.id with
      | some t => walkReaches tm targetId fuel t
      | none => false

/-- The candidate loop `for (const [, thread] of threadsMap)` (lines
574-596): for each child of the ancestor, run the downward walk; on success
take the child's `parentMessageId` if truthy (a falsy value — `null` or the
empty string — leaves the loop scanning, and a stale falsy assignment is
never used downstream, so it is modelled as continuing). -/
def resolveForkAux (tm : ThreadMap) (targetId ancestorId : String) (fuel : Nat) :
    List ThreadNode → Option String
  | [] => none
  | t :: rest =>
    if t.parentId == some ancestorId && walkReaches tm targetId fuel t then
      match t.parentMessageId with
      | some pm =>
        if pm == "" then resolveForkAux tm targetId ancestorId fuel rest
        else some pm
      | none => resolveForkAux tm targetId ancestorId fuel rest
    else resolveForkAux tm targetId ancestorId fuel rest

/-- The fork point used to truncate `ancestorId`'s message list when
assembling context for `targetId`. -/
def resolveForkPoint (tm : ThreadMap) (targetId ancestorId : String)
    (fuel : Nat) : Option String :=
  resolveForkAux tm targetId ancestorId fuel tm

/-- The message-collection loop over one ancestor (lines 598-614): skip
branch-welcome messages, push `{role, content}`, and stop after the fork
point (`if (parentMessageId && message.id === parentMessageId) break`). -/
def takeMsgs : List Msg → Option String → List CtxMsg
  | [], _ => []
  | m :: rest, fp =>
    if isBranchWelcome m then takeMsgs rest fp
    else
      ⟨m.role, m.content⟩ ::
        (match fp with
         | some pmId =>
           if pmId == "" then takeMsgs rest fp
           else if m.id == pmId then []
           else takeMsgs rest fp
         | none => takeMsgs rest fp)

/-- `getAncestralContext(threadId, threadsMap)` (lines 547-618), fuel-indexed
because the source's loops are unbounded; `none` means the upward walk did
not exit within `fuel` iterations. -/
def getAncestralContext (tm : ThreadMap) (fuel : Nat) (threadId : String) :
    Option (List CtxMsg) :=
  (buildChain tm fuel threadId).map (fun chain =>
    chain.flatMap (fun anc =>
      takeMsgs anc.messages (resolveForkPoint tm threadId anc.id fuel)))

/-- `getAncestralContext` with the fuel that is exact on acyclic maps. -/
def getAncestralContextFull (tm : ThreadMap) (threadId : String) :
    Option (List CtxMsg) :=
  getAncestralContext tm (tm.length + 1) threadId

/-- The upstream payload assembled by `sendMessage` (lines 1062-1082):
ancestral context, then the active thread's messages with branch-welcome
messages filtered out, then the new user message last.  (`sendMessage` reads
the map captured before appending the user message, so the current thread's
messages do not yet contain it.) -/
def buildSendMessages (tm : ThreadMap) (activeId : String) (content : List Char) :
    Option (List CtxMsg) :=
  match lookupThread tm activeId with
  | none => none
  | some cur =>
    (getAncestralContextFull tm activeId).map (fun anc =>
      anc ++ ((cur.messages.filter (fun m => !(isBranchWelcome m))).map
        (fun m => ⟨m.role, m.content⟩)) ++ [⟨Role.user, content⟩])

/-! ### The ancestor walk has no defensive bound (C4) -/

/-- Two threads whose parent references form a cycle. -/
def thrCycA : ThreadNode := ⟨"A", [], some ("B"), some ("x"), ("A").data⟩
def thrCycB : ThreadNode := ⟨"B", [], some ("A"), some ("y"), ("B").data⟩
def tmCyclic : ThreadMap := [thrCycA, thrCycB]

/-- A thread whose parent reference is dangling. -/
def thrDangling : ThreadNode := ⟨"D", [], some ("ghost"), some ("g"), ("D").data⟩
def tmDangling : ThreadMap := [thrDangling]

/-- Claim C4 (code bug evaluation): the upward walk of `getAncestralContext`
has no defensive depth bound or visited set.  On a map whose parent
references form a cycle the `while` loop never exits — for EVERY number of
iterations the walk is still running (first conjunct) — and on a dangling
parent reference the walk `break`s silently, yielding a context with no
Corruption report of any kind (the embedding is total only because the
source has no error path at all). -/
theorem c4_ancestor_walk_diverges_on_cycle :
    (∀ fuel : Nat, buildChain tmCyclic fuel ("A") = none) ∧
    buildChain tmDangling 5 ("D") = some [] ∧
    getAncestralContextFull tmDangling ("D") = some [] := by
  have key : ∀ (fuel : Nat) (acc : List ThreadNode),
      buildChainAux tmCyclic fuel thrCycA acc = none ∧
      buildChainAux tmCyclic fuel thrCycB acc = none := by
    intro fuel
    induction fuel with
    | zero => intro acc; exact ⟨rfl, rfl⟩
    | succ n ih =>
      intro acc
      constructor
      · show buildChainAux tmCyclic n thrCycB (thrCycB :: acc) = none
        exact (ih _).2
      · show buildChainAux tmCyclic n thrCycA (thrCycA :: acc) = none
        exact (ih _).1
  refine ⟨?_, by decide, by decide⟩
  intro fuel
  show buildChainAux tmCyclic fuel thrCycA [] = none
  exact (key fuel []).1

/-! ### The fork-point walk follows only the first child (C3) -/

def msgRm1 : Msg := ⟨"m1", Role.user, ("r1").data, none⟩
def msgRm2 : Msg := ⟨"m2", Role.assistant, ("r2").data, none⟩
def msgAa1 : Msg := ⟨"a1", Role.user, ("a1c").data, none⟩
def msgTt1 : Msg := ⟨"t1", Role.user, ("t1c").data, none⟩

/-- Root thread with two messages; its child `A` forked at `m1`. -/
def thrRootC3 : ThreadNode := ⟨"R", [msgRm1, msgRm2], none, none, ("Main").data⟩
/-- `A` forked from `R` at `m1`; it lies on the path from `R` to `T`. -/
def thrMidC3 : ThreadNode := ⟨"A", [msgAa1], some ("R"), some ("m1"), ("Mid").data⟩
/-- A sibling branch of `T` under `A`, inserted into the map BEFORE `T`. -/
def thrSibC3 : ThreadNode := ⟨"B", [], some ("A"), some ("a1"), ("Sib").data⟩
/-- The requested thread, forked from `A` at `a1`. -/
def thrTgtC3 : ThreadNode := ⟨"T", [msgTt1], some ("A"), some ("a1"), ("Tgt").data⟩
def tmForkC3 : ThreadMap := [thrRootC3, thrMidC3, thrSibC3, thrTgtC3]

/-- Claim C3 (code bug evaluation): assembling context for `T` must truncate
ancestor `R` at `m1`, the fork point recorded on `A` — the child of `R` that
lies on the path toward `T`.  But the source's downward walk from `A`
follows only the FIRST child in map order (`B`, a dead end) and never
reaches `T`, so no fork point is resolved for `R` (second conjunct) and
`R`'s messages are included in full — `r2`, beyond the fork point, leaks
into the context (first conjunct). -/
theorem c3_fork_walk_misses_off_path_sibling :
    getAncestralContextFull tmForkC3 ("T")
      = some [⟨Role.user, ("r1").data⟩, ⟨Role.assistant, ("r2").data⟩,
              ⟨Role.user, ("a1c").data⟩] ∧
    resolveForkPoint tmForkC3 ("T") ("R") 5 = none ∧
    resolveForkPoint tmForkC3 ("T") ("A") 5 = some ("a1") := by
  refine ⟨by decide, by decide, by decide⟩

/-! ### The fork scenario of the spec (C5) -/

def msgHello : Msg := ⟨"A", Role.assistant, ("hello").data, none⟩
def msgX : Msg := ⟨"B", Role.user, ("x").data, none⟩
def msgY : Msg := ⟨"C", Role.assistant, ("y").data, none⟩
/-- The synthetic branch-welcome message of the fork. -/
def msgWelcomeF : Msg :=
  ⟨"W", Role.assistant, branchMarker ++ (" welcome to the branch").data,
   some (("wt").data)⟩
def msgQ1 : Msg := ⟨"U1", Role.user, ("q1").data, none⟩
def msgR1F : Msg := ⟨"A1", Role.assistant, ("reply1").data, none⟩

def thrRootC5 : ThreadNode := ⟨"R", [msgHello, msgX, msgY], none, none, ("Main").data⟩
def thrForkC5 : ThreadNode :=
  ⟨"F", [msgWelcomeF, msgQ1, msgR1F], some ("R"), some ("B"), ("Branch").data⟩
def tmScenarioC5 : ThreadMap := [thrRootC5, thrForkC5]

/-- Claim C5: for root `R` with messages `[A(asst,"hello"), B(user,"x"),
C(asst,"y")]` and fork `F` created from `R` at `B`, the payload for a send
in `F` is `R`'s messages truncated at `B` (so `A` and `B`, not `C`),
followed by `F`'s own messages with the synthetic branch-welcome excluded,
followed by the new user message last. -/
theorem c5_fork_scenario_context :
    buildSendMessages tmScenarioC5 ("F") (("next question").data)
      = some [⟨Role.assistant, ("hello").data⟩, ⟨Role.user, ("x").data⟩,
              ⟨Role.user, ("q1").data⟩, ⟨Role.assistant, ("reply1").data⟩,
              ⟨Role.user, ("next question").data⟩] := by
  decide

/-! ### Cascading thread deletion (C7): `deleteThread`, lines 707-752 -/

/-- The ids of the threads whose `parentId` is `pid`, in map order — what the
loop `for (const [childId, thread] of updated)` of `collectDescendants`
visits. -/
def childrenIds (tm : ThreadMap) (pid : String) : List String :=
  (tm.filter (fun t => t.parentId == some pid)).map (fun t => t.id)

/-- The recursive `collectDescendants` of `deleteThread`: add the thread id,
then recurse into every child.  The source recursion is unbounded (it would
overflow on cyclic parent data); it is fuel-indexed here, and
`deleteThreadMap` passes `tm.length + 1`, which is proved exact on maps
whose parent references are acyclic. -/
def collectDescendants (tm : ThreadMap) : Nat → String → List String → List String
  | 0, _, acc => acc
  | fuel + 1, tid, acc =>
    (childrenIds tm tid).foldl (fun a c => collectDescendants tm fuel c a) (acc ++ [tid])

/-- `deleteThread` on the thread map: collect the subtree's ids, then delete
them all. -/
def deleteThreadMap (tm : ThreadMap) (threadId : String) : ThreadMap :=
  let ids := collectDescendants tm (tm.length + 1) threadId []
  tm.filter (fun t => !(ids.contains t.id))

/-- `c` is recorded as a child of `p`: some map entry has id `c` and parent
`p`. -/
def ChildOf (tm : ThreadMap) (p c : String) : Prop :=
  ∃ t, t ∈ tm ∧ t.id = c ∧ t.parentId = some p

/-- `x` is `root` itself or a descendant, with a child-path of length `n`. -/
inductive DescN (tm : ThreadMap) (root : String) : String → Nat → Prop
  | refl : DescN tm root root 0
  | step {p c : String} {n : Nat} :
      DescN tm root p n → ChildOf tm p c → DescN tm root c (n + 1)

/-- `x` is in the subtree of `root` (including `root`). -/
def IsDesc (tm : ThreadMap) (root x : String) : Prop := ∃ n, DescN tm root x n

/-- The parent reference of the entry found for `x`, if any. -/
def parentRef (tm : ThreadMap) (x : String) : Option String :=
  match lookupThread tm x with
  | none => none
  | some t => t.parentId

/-- The upward parent walk from `x` reaches, within `fuel` steps, a thread
with no parent or a dangling reference. -/
def rootedAt (tm : ThreadMap) : Nat → String → Bool
  | 0, _ => false
  | fuel + 1, x =>
    match parentRef tm x with
    | none => true
    | some p => rootedAt tm fuel p

theorem childOf_of_mem_childrenIds {tm : ThreadMap} {pid c : String}
    (h : c ∈ childrenIds tm pid) : ChildOf tm pid c := by
  simp only [childrenIds, List.mem_map, List.mem_filter] at h
  obtain ⟨t, ⟨htm, hp⟩, hid⟩ := h
  exact ⟨t, htm, hid, by simpa using hp⟩

theorem mem_childrenIds_of_childOf {tm : ThreadMap} {pid c : String}
    (h : ChildOf tm pid c) : c ∈ childrenIds tm pid := by
  obtain ⟨t, htm, hid, hp⟩ := h
  simp only [childrenIds, List.mem_map, List.mem_filter]
  exact ⟨t, ⟨htm, by simp [hp]⟩, hid⟩

theorem sub_collectDescendants (tm : ThreadMap) :
    ∀ (fuel : Nat) (tid : String) (acc : List String),
      acc ⊆ collectDescendants tm fuel tid acc := by
  intro fuel
  induction fuel with
  | zero => intro tid acc; exact List.Subset.refl acc
  | succ f ih =>
    intro tid acc
    have hfold : ∀ (cs : List String) (a : List String),
        a ⊆ cs.foldl (fun a c => collectDescendants tm f c a) a := by
      intro cs
      induction cs with
      | nil => intro a; exact List.Subset.refl a
      | cons c cs ihc =>
        intro a
        exact (ih c a).trans (ihc (collectDescendants tm f c a))
    calc acc ⊆ acc ++ [tid] := by simp
      _ ⊆ _ := hfold (childrenIds tm tid) (acc ++ [tid])

theorem descN_prepend {tm : ThreadMap} {p c x : String} {n : Nat}
    (hc : ChildOf tm p c) (hd : DescN tm c x n) : DescN tm p x (n + 1) := by
  induction hd with
  | refl => exact DescN.step DescN.refl hc
  | step hsub hco ih => exact DescN.step ih hco

theorem collect_sound (tm : ThreadMap) :
    ∀ (fuel : Nat) (tid : String) (acc : List String) (x : String),
      x ∈ collectDescendants tm fuel tid acc → x ∈ acc ∨ IsDesc tm tid x := by
  intro fuel
  induction fuel with
  | zero => intro tid acc x hx; exact Or.inl hx
  | succ f ih =>
    intro tid acc x hx
    have hfold : ∀ (cs : List String) (a : List String),
        x ∈ cs.foldl (fun a c => collectDescendants tm f c a) a →
          x ∈ a ∨ ∃ c ∈ cs, IsDesc tm c x := by
      intro cs
      induction cs with
      | nil => intro a ha; exact Or.inl ha
      | cons c cs ihc =>
        intro a ha
        rcases ihc (collectDescendants tm f c a) ha with h | ⟨c', hc', hd⟩
        · rcases ih c a x h with h' | h'
          · exact Or.inl h'
          · exact Or.inr ⟨c, by simp, h'⟩
        · exact Or.inr ⟨c', by simp [hc'], hd⟩
    rcases hfold (childrenIds tm tid) (acc ++ [tid]) hx with h | ⟨c, hc, n, hd⟩
    · rcases List.mem_append.mp h with h' | h'
      · exact Or.inl h'
      · have : x = tid := by simpa using h'
        exact Or.inr ⟨0, this ▸ DescN.refl⟩
    · exact Or.inr ⟨n + 1, descN_prepend (childOf_of_mem_childrenIds hc) hd⟩

theorem descN_zero {tm : ThreadMap} {root x : String}
    (h : DescN tm root x 0) : x = root := by
  cases h
  rfl

theorem descN_decompose {tm : ThreadMap} {root x : String} {m : Nat} :
    DescN tm root x (m + 1) → ∃ c, ChildOf tm root c ∧ DescN tm c x m := by
  induction m generalizing x with
  | zero =>
    intro h
    cases h with
    | step hsub hco =>
      have := descN_zero hsub
      subst this
      exact ⟨x, hco, DescN.refl⟩
  | succ m ih =>
    intro h
    cases h with
    | step hsub hco =>
      obtain ⟨c, hcc, hd⟩ := ih hsub
      exact ⟨c, hcc, DescN.step hd hco⟩

theorem collect_complete (tm : ThreadMap) :
    ∀ (n : Nat) (root x : String), DescN tm root x n →
      ∀ (fuel : Nat) (acc : List String), n < fuel →
        x ∈ collectDescendants tm fuel root acc := by
  intro n
  induction n with
  | zero =>
    intro root x hd fuel acc hf
    have hx := descN_zero hd
    subst hx
    obtain ⟨f, rfl⟩ : ∃ f, fuel = f + 1 := ⟨fuel - 1, by omega⟩
    have hmem : x ∈ acc ++ [x] := by simp
    have hsub : (acc ++ [x]) ⊆ (childrenIds tm x).foldl
        (fun a c => collectDescendants tm f c a) (acc ++ [x]) := by
      have hfold : ∀ (cs : List String) (a : List String),
          a ⊆ cs.foldl (fun a c => collectDescendants tm f c a) a := by
        intro cs
        induction cs with
        | nil => intro a; exact List.Subset.refl a
        | cons c cs ihc =>
          intro a
          exact (sub_collectDescendants tm f c a).trans
            (ihc (collectDescendants tm f c a))
      exact hfold _ _
    exact hsub hmem
  | succ m ih =>
    intro root x hd fuel acc hf
    obtain ⟨c, hcc, hdc⟩ := descN_decompose hd
    obtain ⟨f, rfl⟩ : ∃ f, fuel = f + 1 := ⟨fuel - 1, by omega⟩
    have hm : m < f := by omega
    have hcmem : c ∈ childrenIds tm root := mem_childrenIds_of_childOf hcc
    have hin : ∀ a, x ∈ collectDescendants tm f c a := fun a => ih c x hdc f a hm
    have hfold : ∀ (cs : List String) (a : List String), c ∈ cs →
        x ∈ cs.foldl (fun a c' => collectDescendants tm f c' a) a := by
      intro cs
      induction cs with
      | nil => intro a h; cases h
      | cons d cs ihc =>
        intro a h
        rcases List.mem_cons.mp h with h | h
        · subst h
          have hstep : x ∈ collectDescendants tm f c a := hin a
          have hmono : ∀ (cs' : List String) (a' : List String),
              a' ⊆ cs'.foldl (fun a c' => collectDescendants tm f c' a) a' := by
            intro cs'
            induction cs' with
            | nil => intro a'; exact List.Subset.refl a'
            | cons e cs' ihe =>
              intro a'
              exact (sub_collectDescendants tm f e a').trans
                (ihe (collectDescendants tm f e a'))
          exact hmono cs (collectDescendants tm f c a) hstep
        · exact ihc (collectDescendants tm f d a) h
    exact hfold (childrenIds tm root) (acc ++ [root]) hcmem

theorem parentRef_of_childOf {tm : ThreadMap} {p c : String}
    (hnd : (tm.map (fun t => t.id)).Nodup) (h : ChildOf tm p c) :
    parentRef tm c = some p := by
  obtain ⟨t, htm, hid, hp⟩ := h
  cases h' : lookupThread tm c with
  | none =>
    rw [lookupThread, List.find?_eq_none] at h'
    exact absurd (by simp [hid]) (h' t htm)
  | some t' =>
    have ht'mem : t' ∈ tm := List.mem_of_find?_eq_some h'
    have ht'id : t'.id = c := by
      have := List.find?_some h'
      simpa using this
    have : t' = t := by
      have hinj := List.inj_on_of_nodup_map hnd
      exact hinj ht'mem htm (by rw [ht'id, hid])
    subst this
    simp [parentRef, h', hp]

theorem descN_lt_of_rooted {tm : ThreadMap}
    (hnd : (tm.map (fun t => t.id)).Nodup) {root x : String} {n : Nat}
    (hd : DescN tm root x n) :
    ∀ (k : Nat), rootedAt tm k x = true → n < k := by
  induction hd with
  | refl =>
    intro k hk
    cases k with
    | zero => cases hk
    | succ k' => omega
  | @step p c m hsub hco ih =>
    intro k hk
    cases k with
    | zero => cases hk
    | succ k' =>
      have hpr := parentRef_of_childOf hnd hco
      have hstep : rootedAt tm (k' + 1) c = rootedAt tm k' p := by
        simp [rootedAt, hpr]
      rw [hstep] at hk
      have := ih k' hk
      omega

/-- The set of ids `deleteThread` removes. -/
def deletedIds (tm : ThreadMap) (threadId : String) : List String :=
  collectDescendants tm (tm.length + 1) threadId []

theorem deleteThreadMap_eq_filter (tm : ThreadMap) (threadId : String) :
    deleteThreadMap tm threadId
      = tm.filter (fun t => !((deletedIds tm threadId).contains t.id)) := rfl

theorem countP_split {α : Type} (l : List α) (p q : α → Bool) :
    l.countP p = l.countP (fun a => p a && q a) + l.countP (fun a => p a && !q a) := by
  induction l with
  | nil => rfl
  | cons a l ih =>
    rw [List.countP_cons, List.countP_cons, List.countP_cons, ih]
    cases hp : p a <;> cases hq : q a <;> simp [hp, hq] <;> omega

theorem countP_unique_id {tm : ThreadMap} {rt : ThreadNode}
    (hnd : (tm.map (fun t => t.id)).Nodup) (hrt : rt ∈ tm) (q : ThreadNode → Bool) :
    tm.countP (fun t => q t && (t.id == rt.id)) = if q rt then 1 else 0 := by
  induction tm with
  | nil => cases hrt
  | cons t0 tl ih =>
    rw [List.map_cons, List.nodup_cons] at hnd
    rcases List.mem_cons.mp hrt with heq | hmem
    · subst heq
      rw [List.countP_cons]
      have hz : tl.countP (fun t => q t && (t.id == rt.id)) = 0 := by
        rw [List.countP_eq_zero]
        intro a ha
        have : a.id ≠ rt.id := by
          intro hcontra
          exact hnd.1 (hcontra ▸ List.mem_map_of_mem (fun t => t.id) ha)
        simp [this]
      rw [hz]
      simp
    · have hne : t0.id ≠ rt.id := by
        intro hcontra
        exact hnd.1 (hcontra ▸ List.mem_map_of_mem (fun t => t.id) hmem)
      rw [List.countP_cons]
      have : (q t0 && (t0.id == rt.id)) = false := by
        simp [hne]
      rw [this]
      simp [ih hnd.2 hmem]

/-- Claim C7: on a map whose parent references are acyclic (`hac`, with
distinct thread ids `hnd`), deleting a thread removes exactly its subtree:
(1) the collected delete set is precisely the descendants-or-self relation;
(2) a thread survives iff it is not in the subtree;
(3) no surviving thread's `parentId` references a deleted id — no orphans;
(4) exactly `#subtree-entries` threads are removed;
(5) the removed count is `1 + K` where `K` counts the proper descendants. -/
theorem c7_delete_removes_exactly_subtree (tm : ThreadMap) (rootId : String)
    (hnd : (tm.map (fun t => t.id)).Nodup)
    (hac : ∀ t ∈ tm, rootedAt tm (tm.length + 1) t.id = true)
    (rt : ThreadNode) (hrt : rt ∈ tm) (hrtid : rt.id = rootId) :
    (∀ x : String, x ∈ deletedIds tm rootId ↔ IsDesc tm rootId x) ∧
    (∀ t : ThreadNode,
      t ∈ deleteThreadMap tm rootId ↔ (t ∈ tm ∧ ¬ IsDesc tm rootId t.id)) ∧
    (∀ t ∈ deleteThreadMap tm rootId, ∀ p : String, t.parentId = some p →
      ¬ IsDesc tm rootId p) ∧
    ((deleteThreadMap tm rootId).length
      + tm.countP (fun t => (deletedIds tm rootId).contains t.id) = tm.length) ∧
    (tm.countP (fun t => (deletedIds tm rootId).contains t.id)
      = 1 + tm.countP (fun t =>
          (deletedIds tm rootId).contains t.id && !(t.id == rootId))) := by
  have hiff : ∀ x : String, x ∈ deletedIds tm rootId ↔ IsDesc tm rootId x := by
    intro x
    constructor
    · intro hx
      rcases collect_sound tm (tm.length + 1) rootId [] x hx with h | h
      · cases h
      · exact h
    · rintro ⟨n, hd⟩
      apply collect_complete tm n rootId x hd (tm.length + 1) []
      cases n with
      | zero => omega
      | succ m =>
        have hx : ∃ t ∈ tm, t.id = x := by
          cases hd with
          | step hsub hco =>
            obtain ⟨t, htm, hid, _⟩ := hco
            exact ⟨t, htm, hid⟩
        obtain ⟨t, htm, hid⟩ := hx
        have hrooted : rootedAt tm (tm.length + 1) x = true := hid ▸ hac t htm
        exact descN_lt_of_rooted hnd hd (tm.length + 1) hrooted
  have hmem : ∀ t : ThreadNode,
      t ∈ deleteThreadMap tm rootId ↔ (t ∈ tm ∧ ¬ IsDesc tm rootId t.id) := by
    intro t
    rw [deleteThreadMap_eq_filter, List.mem_filter]
    constructor
    · rintro ⟨htm, hq⟩
      refine ⟨htm, fun hdesc => ?_⟩
      have hc : (deletedIds tm rootId).contains t.id = true :=
        List.elem_iff.mpr ((hiff t.id).mpr hdesc)
      rw [hc] at hq
      simp at hq
    · rintro ⟨htm, hnotdesc⟩
      refine ⟨htm, ?_⟩
      cases hcontains : (deletedIds tm rootId).contains t.id with
      | false => simp [hcontains]
      | true => exact absurd ((hiff t.id).mp (List.elem_iff.mp hcontains)) hnotdesc
  refine ⟨hiff, hmem, ?_, ?_, ?_⟩
  · intro t ht p hp hdesc
    obtain ⟨htm, hnotdesc⟩ := (hmem t).mp ht
    obtain ⟨n, hd⟩ := hdesc
    exact hnotdesc ⟨n + 1, DescN.step hd ⟨t, htm, rfl, hp⟩⟩
  · rw [deleteThreadMap_eq_filter, ← List.countP_eq_length_filter]
    have hsplit := List.length_eq_countP_add_countP
      (fun t => (deletedIds tm rootId).contains t.id) tm
    have hcongr : tm.countP (fun a => decide
        ¬ ((deletedIds tm rootId).contains a.id = true))
        = tm.countP (fun t => !((deletedIds tm rootId).contains t.id)) := by
      apply List.countP_congr
      intro a _
      cases h : (deletedIds tm rootId).contains a.id <;> simp [h]
    rw [hcongr] at hsplit
    omega
  · have h5 := countP_split tm
      (fun t => (deletedIds tm rootId).contains t.id) (fun t => t.id == rootId)
    have hcr : (deletedIds tm rootId).contains rootId = true :=
      List.elem_iff.mpr ((hiff rootId).mpr ⟨0, DescN.refl⟩)
    have hone : tm.countP
        (fun t => (deletedIds tm rootId).contains t.id && (t.id == rootId)) = 1 := by
      have huniq := countP_unique_id hnd hrt
        (fun t => (deletedIds tm rootId).contains t.id)
      rw [hrtid] at huniq
      rw [huniq, if_pos]
      exact hcr
    rw [h5, hone]

def thrWP : ThreadNode := ⟨"P", [], none, none, ("P").data⟩
def thrWC1 : ThreadNode := ⟨"C1", [], some ("P"), some ("pm1"), ("C1").data⟩
def thrWC2 : ThreadNode := ⟨"C2", [], some ("C1"), some ("pm2"), ("C2").data⟩
def thrWU : ThreadNode := ⟨"U", [], none, none, ("U").data⟩
/-- A concrete forest: `P` with child `C1`, grandchild `C2`, and an
unrelated root `U`. -/
def tmWitnessC7 : ThreadMap := [thrWP, thrWC1, thrWC2, thrWU]

/-- Witness for C7: the hypotheses hold on `tmWitnessC7` and deleting `P`
removes exactly the subtree `{P, C1, C2}`. -/
theorem c7_delete_removes_exactly_subtree_witness :
    ((tmWitnessC7.map (fun t => t.id)).Nodup ∧
     (∀ t ∈ tmWitnessC7,
        rootedAt tmWitnessC7 (tmWitnessC7.length + 1) t.id = true) ∧
     thrWP ∈ tmWitnessC7 ∧ thrWP.id = "P") ∧
    ((∀ x : String, x ∈ deletedIds tmWitnessC7 ("P") ↔ IsDesc tmWitnessC7 ("P") x) ∧
     (∀ t : ThreadNode,
       t ∈ deleteThreadMap tmWitnessC7 ("P") ↔
         (t ∈ tmWitnessC7 ∧ ¬ IsDesc tmWitnessC7 ("P") t.id)) ∧
     (∀ t ∈ deleteThreadMap tmWitnessC7 ("P"), ∀ p : String, t.parentId = some p →
       ¬ IsDesc tmWitnessC7 ("P") p) ∧
     ((deleteThreadMap tmWitnessC7 ("P")).length
       + tmWitnessC7.countP (fun t => (deletedIds tmWitnessC7 ("P")).contains t.id)
       = tmWitnessC7.length) ∧
     (tmWitnessC7.countP (fun t => (deletedIds tmWitnessC7 ("P")).contains t.id)
       = 1 + tmWitnessC7.countP (fun t =>
           (deletedIds tmWitnessC7 ("P")).contains t.id && !(t.id == "P")))) :=
  ⟨⟨by decide, by decide, by decide, rfl⟩,
   c7_delete_removes_exactly_subtree tmWitnessC7 ("P") (by decide) (by decide)
     thrWP (by decide) rfl⟩

/-! ### `sendMessage` streaming and cancellation (C9), lines 1028-1233 -/

/-- The error taxonomy of the spec.  The source never surfaces any of these:
every embedded operation carries an `Except CanvasError Unit` outcome channel
recording what the caller observes, and every path of the source returns
normally, so the channel is `.ok ()` throughout. -/
inductive CanvasError
  | notFound
  | invalidState
  | corruption
deriving DecidableEq, Repr

/-- How a send ends: natural completion, a user abort mid-stream
(`AbortError`), or an upstream failure (any other exception) which triggers
the mock-response fallback.  In all three cases `chunks` are the chunks that
arrived before the terminal event. -/
inductive StreamTerminal
  | completed
  | aborted
  | failed
deriving DecidableEq, Repr

/-- A `setThreads` update appending a message to a thread (user message at
lines 1041-1054 with the title update, placeholder assistant message at lines
1110-1128 without). -/
def appendMessage (tm : ThreadMap) (tid : String) (m : Msg) (updateTitle : Bool) :
    ThreadMap :=
  tm.map (fun t =>
    if t.id == tid then
      { t with
        messages := t.messages ++ [m],
        title := if updateTitle && (t.messages.length == 1)
                 then m.content.take 40 else t.title }
    else t)

/-- The per-chunk `setThreads` update overwriting the streaming assistant
message's `content`/`thoughts` (lines 1141-1158). -/
def updateAssistantMsg (tm : ThreadMap) (tid mid : String) (content : List Char)
    (thoughts : Option (List Char)) : ThreadMap :=
  tm.map (fun t =>
    if t.id == tid then
      { t with messages := t.messages.map (fun m =>
          if m.id == mid then { m with content := content, thoughts := thoughts }
          else m) }
    else t)

/-- The read loop (lines 1131-1159): accumulate each chunk into
`streamedContent`, re-parse the whole buffer, and overwrite the trailing
assistant message. -/
def streamLoop (tid mid : String) : ThreadMap → List Char → List (List Char) →
    ThreadMap
  | tm, _, [] => tm
  | tm, acc, c :: cs =>
    let acc2 := acc ++ c
    let pr := parseR1Response acc2
    streamLoop tid mid (updateAssistantMsg tm tid mid pr.content pr.thoughts) acc2 cs

/-- The fallback path of the catch block (lines 1204-1224): replace the
placeholder with the parsed mock response, or append it if no placeholder was
added. -/
def replaceOrAppendAssistant (tm : ThreadMap) (tid mid : String) (am : Msg) :
    ThreadMap :=
  tm.map (fun t =>
    if t.id == tid then
      { t with messages :=
          if t.messages.any (fun m => m.id == mid)
          then t.messages.map (fun m => if m.id == mid then am else m)
          else t.messages ++ [am] }
    else t)

/-- `sendMessage(content)` on the thread map (lines 1028-1233), for a run in
which the fetch succeeded and the placeholder was appended, `chunks` arrived,
and then the terminal event `term` occurred.  On `aborted` (the catch branch
for `AbortError`, lines 1179-1186) the map is returned exactly as streamed —
no fallback is substituted; on `failed` the mock fallback replaces the
placeholder.  A missing active thread returns the map unchanged
(`if (!activeThread) return;`) with no error signalled. -/
def sendMessageRun (tm : ThreadMap) (activeId : String) (content : List Char)
    (userMsgId asstMsgId : String) (chunks : List (List Char))
    (term : StreamTerminal) (mockRaw : List Char) :
    ThreadMap × Except CanvasError Unit :=
  match lookupThread tm activeId with
  | none => (tm, Except.ok ())
  | some _ =>
    let userMsg : Msg := ⟨userMsgId, Role.user, content, none⟩
    let tm1 := appendMessage tm activeId userMsg true
    let tm2 := appendMessage tm1 activeId ⟨asstMsgId, Role.assistant, [], none⟩ false
    let tm3 := streamLoop activeId asstMsgId tm2 [] chunks
    match term with
    | StreamTerminal.completed => (tm3, Except.ok ())
    | StreamTerminal.aborted => (tm3, Except.ok ())
    | StreamTerminal.failed =>
      let pr := parseR1Response mockRaw
      let am : Msg := ⟨asstMsgId, Role.assistant, pr.content, pr.thoughts⟩
      (replaceOrAppendAssistant tm3 activeId asstMsgId am, Except.ok ())

theorem updateAssistant_collapse (tm : ThreadMap) (tid mid : String)
    (c₁ c₂ : List Char) (th₁ th₂ : Option (List Char)) :
    updateAssistantMsg (updateAssistantMsg tm tid mid c₁ th₁) tid mid c₂ th₂
      = updateAssistantMsg tm tid mid c₂ th₂ := by
  simp only [updateAssistantMsg, List.map_map]
  apply List.map_congr_left
  intro t _
  simp only [Function.comp_apply]
  by_cases ht : t.id = tid
  · simp only [ht, beq_self_eq_true, if_true, List.map_map]
    congr 1
    apply List.map_congr_left
    intro m _
    simp only [Function.comp_apply]
    by_cases hm : m.id = mid
    · simp [hm]
    · simp [hm]
  · simp [ht]

theorem streamLoop_collapse (tid mid : String) :
    ∀ (cs : List (List Char)) (tm : ThreadMap) (acc : List Char), cs ≠ [] →
      streamLoop tid mid tm acc cs
        = updateAssistantMsg tm tid mid
            (parseR1Response (acc ++ cs.flatten)).content
            (parseR1Response (acc ++ cs.flatten)).thoughts := by
  intro cs
  induction cs with
  | nil => intro tm acc h; exact absurd rfl h
  | cons c cs ih =>
    intro tm acc _
    cases cs with
    | nil =>
      show updateAssistantMsg tm tid mid
          (parseR1Response (acc ++ c)).content (parseR1Response (acc ++ c)).thoughts = _
      simp
    | cons d ds =>
      have hstep : streamLoop tid mid tm acc (c :: d :: ds)
          = streamLoop tid mid
              (updateAssistantMsg tm tid mid
                (parseR1Response (acc ++ c)).content
                (parseR1Response (acc ++ c)).thoughts)
              (acc ++ c) (d :: ds) := rfl
      rw [hstep, ih _ (acc ++ c) (by simp), updateAssistant_collapse]
      have hflat : (acc ++ c) ++ (d :: ds).flatten = acc ++ (c :: d :: ds).flatten := by
        simp [List.append_assoc]
      rw [hflat]

theorem lookupThread_map_preserve (tm : ThreadMap) (f : ThreadNode → ThreadNode)
    (hf : ∀ t, (f t).id = t.id) (x : String) :
    lookupThread (tm.map f) x = (lookupThread tm x).map f := by
  induction tm with
  | nil => rfl
  | cons t tl ih =>
    simp only [lookupThread, List.map_cons, List.find?_cons] at ih ⊢
    rw [hf t]
    by_cases h : (t.id == x) = true
    · simp [h]
    · simp only [h]
      exact ih

/-- Claim C9: when the user aborts an in-flight send after `chunks` have
been streamed, the run ends in exactly the state produced by streaming —
the trailing assistant message holds precisely the parse of the streamed
prefix, no fallback or placeholder response replaces it, no error is
signalled, and the aborted run's result coincides with a natural
completion's (cancellation is a normal terminal state). -/
theorem c9_abort_preserves_streamed_content (tm : ThreadMap) (activeId : String)
    (content : List Char) (userMsgId asstMsgId : String)
    (chunks : List (List Char)) (mockRaw : List Char)
    (t : ThreadNode) (ht : lookupThread tm activeId = some t)
    (hchunks : chunks ≠ [])
    (hfresh : ∀ m ∈ t.messages, m.id ≠ asstMsgId)
    (hids : userMsgId ≠ asstMsgId) :
    sendMessageRun tm activeId content userMsgId asstMsgId chunks
        StreamTerminal.aborted mockRaw
      = sendMessageRun tm activeId content userMsgId asstMsgId chunks
          StreamTerminal.completed mockRaw ∧
    (sendMessageRun tm activeId content userMsgId asstMsgId chunks
        StreamTerminal.aborted mockRaw).2 = Except.ok () ∧
    lookupThread (sendMessageRun tm activeId content userMsgId asstMsgId chunks
        StreamTerminal.aborted mockRaw).1 activeId
      = some { t with
          messages := t.messages ++
            [⟨userMsgId, Role.user, content, none⟩,
             ⟨asstMsgId, Role.assistant,
              (parseR1Response chunks.flatten).content,
              (parseR1Response chunks.flatten).thoughts⟩],
          title := if t.messages.length == 1 then content.take 40 else t.title } := by
  have htid : (t.id == activeId) = true := by
    have h := ht
    rw [lookupThread] at h
    have h2 := List.find?_some h
    exact h2
  refine ⟨by simp [sendMessageRun, ht], by simp [sendMessageRun, ht], ?_⟩
  simp only [sendMessageRun, ht]
  rw [streamLoop_collapse activeId asstMsgId chunks _ [] hchunks]
  simp only [List.nil_append, updateAssistantMsg, appendMessage]
  rw [lookupThread_map_preserve _ _ (fun t => by
        by_cases h : (t.id == activeId) = true <;> simp [h]),
      lookupThread_map_preserve _ _ (fun t => by
        by_cases h : (t.id == activeId) = true <;> simp [h]),
      lookupThread_map_preserve _ _ (fun t => by
        by_cases h : (t.id == activeId) = true <;> simp [h]),
      ht]
  simp only [Option.map_some', htid, if_true]
  congr 1
  have hmsgs : ∀ m ∈ t.messages ++ [(⟨userMsgId, Role.user, content, none⟩ : Msg)],
      (m.id == asstMsgId) = false := by
    intro m hm
    rcases List.mem_append.mp hm with h | h
    · simp [hfresh m h]
    · have : m = ⟨userMsgId, Role.user, content, none⟩ := by simpa using h
      subst this
      simp [hids]
  congr 1
  · rw [List.map_append]
    have h1 : (t.messages ++ [(⟨userMsgId, Role.user, content, none⟩ : Msg)]).map
        (fun m => if m.id == asstMsgId
          then { m with content := (parseR1Response chunks.flatten).content,
                        thoughts := (parseR1Response chunks.flatten).thoughts }
          else m)
        = t.messages ++ [(⟨userMsgId, Role.user, content, none⟩ : Msg)] := by
      rw [show (t.messages ++ [(⟨userMsgId, Role.user, content, none⟩ : Msg)]).map
            (fun m => if m.id == asstMsgId
              then { m with content := (parseR1Response chunks.flatten).content,
                            thoughts := (parseR1Response chunks.flatten).thoughts }
              else m)
          = (t.messages ++ [(⟨userMsgId, Role.user, content, none⟩ : Msg)]).map id from
        List.map_congr_left (fun m hm => by simp [hmsgs m hm])]
      exact List.map_id _
    rw [h1]
    simp

def thrSendC9 : ThreadNode :=
  ⟨"S", [⟨"m0", Role.assistant, ("hi").data, none⟩], none, none, ("S").data⟩
def tmSendC9 : ThreadMap := [thrSendC9]

/-- Witness for C9: aborting after two chunks (splitting the reasoning span)
leaves exactly the streamed parse in the trailing assistant message. -/
theorem c9_abort_preserves_streamed_content_witness :
    (lookupThread tmSendC9 ("S") = some thrSendC9 ∧
     ([("<think>rea").data, ("soning</think>ans").data] : List (List Char)) ≠ [] ∧
     (∀ m ∈ thrSendC9.messages, m.id ≠ "a1") ∧ ("u1" : String) ≠ ("a1")) ∧
    (sendMessageRun tmSendC9 ("S") (("q").data) ("u1") ("a1")
        [("<think>rea").data, ("soning</think>ans").data]
        StreamTerminal.aborted (("mock").data)
      = sendMessageRun tmSendC9 ("S") (("q").data) ("u1") ("a1")
          [("<think>rea").data, ("soning</think>ans").data]
          StreamTerminal.completed (("mock").data) ∧
     (sendMessageRun tmSendC9 ("S") (("q").data) ("u1") ("a1")
        [("<think>rea").data, ("soning</think>ans").data]
        StreamTerminal.aborted (("mock").data)).2 = Except.ok () ∧
     lookupThread (sendMessageRun tmSendC9 ("S") (("q").data) ("u1") ("a1")
        [("<think>rea").data, ("soning</think>ans").data]
        StreamTerminal.aborted (("mock").data)).1 ("S")
       = some { thrSendC9 with
           messages := thrSendC9.messages ++
             [⟨"u1", Role.user, ("q").data, none⟩,
              ⟨"a1", Role.assistant,
               (parseR1Response ([("<think>rea").data,
                 ("soning</think>ans").data] : List (List Char)).flatten).content,
               (parseR1Response ([("<think>rea").data,
                 ("soning</think>ans").data] : List (List Char)).flatten).thoughts⟩],
           title := if thrSendC9.messages.length == 1
                    then (("q").data).take 40 else thrSendC9.title }) :=
  ⟨⟨by decide, by decide, by decide, by decide⟩,
   c9_abort_preserves_streamed_content tmSendC9 ("S") (("q").data) ("u1") ("a1")
     [("<think>rea").data, ("soning</think>ans").data] (("mock").data)
     thrSendC9 (by decide) (by decide) (by decide) (by decide)⟩

/-! ### Branch creation from a missing source (C8) -/

/-- `selectedContext.replace(/\n/g, "\n> ")`. -/
def quoteLines : List Char → List Char
  | [] => []
  | c :: rest =>
    if c = '\n' then '\n' :: '>' :: ' ' :: quoteLines rest
    else c :: quoteLines rest

/-- The seeded user message of `createBranchWithQuery`:
```> ${selectedContext.replace(/\n/g, "\n> ")}\n\n${userQuery}``. -/
def formatBranchQuery (userQuery selectedContext : List Char) : List Char :=
  ("> ").data ++ quoteLines selectedContext ++ ("\n\n").data ++ userQuery

/-- `createBranch(parentId, contextMessageId)` (lines 794-832).  The outcome
channel records what the caller observes: the source returns `undefined` on
every path and never throws, so it is always `.ok ()` — in particular when
the source thread does not exist, where the function silently returns with
the map and active thread unchanged. -/
def createBranch (tm : ThreadMap) (activeId : String) (pid ctxMsgId : String)
    (newThreadId welcomeMsgId : String) :
    (ThreadMap × String) × Except CanvasError Unit :=
  match lookupThread tm pid with
  | none => ((tm, activeId), Except.ok ())
  | some parentThread =>
    let contextMessage := parentThread.messages.find? (fun m => m.id == ctxMsgId)
    let title := match contextMessage with
      | some cm => ("Branch: ").data ++ cm.content.take 30 ++ ("...").data
      | none => ("New Branch").data
    -- `${contextMessage?.content.substring(0, 150)}` interpolates the string
    -- "undefined" when the context message is absent.
    let excerpt := match contextMessage with
      | some cm => cm.content.take 150 ++
          (if 150 < cm.content.length then ("...").data else [])
      | none => ("undefined").data
    let welcome : Msg :=
      ⟨welcomeMsgId, Role.assistant,
       branchMarker ++ (" **Branching from the conversation.**\n\nYou can explore a different direction here while keeping the original thread intact.\n\n> *Context from parent:*\n> \"").data
         ++ excerpt ++ ("\"").data,
       some (("User created a branch to explore an alternative path. I should acknowledge this and be ready for their new direction.").data)⟩
    let newThread : ThreadNode :=
      ⟨newThreadId, [welcome], some pid, some ctxMsgId, title⟩
    ((tm ++ [newThread], newThreadId), Except.ok ())

/-- The synchronous creation part of `createBranchWithQuery` (lines 835-877);
the following network phase streams like `sendMessageRun`.  As with
`createBranch`, a missing source thread silently returns with nothing
changed and nothing signalled. -/
def createBranchWithQuery (tm : ThreadMap) (activeId : String)
    (pid ctxMsgId : String) (userQuery selectedContext : List Char)
    (newThreadId userMsgId : String) :
    (ThreadMap × String) × Except CanvasError Unit :=
  match lookupThread tm pid with
  | none => ((tm, activeId), Except.ok ())
  | some _ =>
    let formattedQuery := formatBranchQuery userQuery selectedContext
    let userMessage : Msg := ⟨userMsgId, Role.user, formattedQuery, none⟩
    let newThread : ThreadNode :=
      ⟨newThreadId, [userMessage], some pid, some ctxMsgId,
       userQuery.take 35 ++ (if 35 < userQuery.length then ("...").data else [])⟩
    ((tm ++ [newThread], newThreadId), Except.ok ())

/-- Counterexample to claim C8: creating a branch (plain or with query) from
the nonexistent thread id `"nope"`, and sending to the nonexistent thread
`"ghost"`, do NOT fail with a reported NotFound condition — each operation
returns normally (`.ok ()`, never `.error .notFound`) and leaves the state
unchanged: the failure is silently swallowed. -/
theorem c8_counterexample_silent_noop :
    (createBranch tmSendC9 ("S") ("nope") ("m0") ("nt") ("wm")).2 = Except.ok () ∧
    (createBranch tmSendC9 ("S") ("nope") ("m0") ("nt") ("wm")).1 = (tmSendC9, "S") ∧
    ¬ ((createBranch tmSendC9 ("S") ("nope") ("m0") ("nt") ("wm")).2
        = Except.error CanvasError.notFound) ∧
    (createBranchWithQuery tmSendC9 ("S") ("nope") ("m0") (("q").data)
        (("sel").data) ("nt") ("um")).2 = Except.ok () ∧
    (createBranchWithQuery tmSendC9 ("S") ("nope") ("m0") (("q").data)
        (("sel").data) ("nt") ("um")).1 = (tmSendC9, "S") ∧
    ¬ ((createBranchWithQuery tmSendC9 ("S") ("nope") ("m0") (("q").data)
        (("sel").data) ("nt") ("um")).2 = Except.error CanvasError.notFound) ∧
    sendMessageRun tmSendC9 ("ghost") (("q").data) ("u") ("a") []
        StreamTerminal.completed [] = (tmSendC9, Except.ok ()) :=
  ⟨rfl, by decide, fun h => Except.noConfusion h, rfl, by decide,
   fun h => Except.noConfusion h, rfl⟩

/-- Claim C8 as amended: creating a branch from a nonexistent source thread,
or sending a message when the referenced thread does not exist, is a SILENT
no-op — the operation returns normally with the thread map and active thread
unchanged, and no error condition of any kind is surfaced to the caller. -/
theorem c8_missing_source_is_silent_noop (tm : ThreadMap)
    (activeId pid cid ntid wmid umid : String)
    (uq sc content : List Char) (userMsgId asstMsgId : String)
    (chunks : List (List Char)) (term : StreamTerminal) (mockRaw : List Char)
    (h : lookupThread tm pid = none) :
    createBranch tm activeId pid cid ntid wmid = ((tm, activeId), Except.ok ()) ∧
    createBranchWithQuery tm activeId pid cid uq sc ntid umid
      = ((tm, activeId), Except.ok ()) ∧
    sendMessageRun tm pid content userMsgId asstMsgId chunks term mockRaw
      = (tm, Except.ok ()) := by
  refine ⟨?_, ?_, ?_⟩ <;> simp [createBranch, createBranchWithQuery, sendMessageRun, h]

/-- Witness for the amended C8 at a concrete map and missing id. -/
theorem c8_missing_source_is_silent_noop_witness :
    lookupThread tmSendC9 ("nope") = none ∧
    (createBranch tmSendC9 ("S") ("nope") ("m0") ("nt") ("wm")
       = ((tmSendC9, "S"), Except.ok ()) ∧
     createBranchWithQuery tmSendC9 ("S") ("nope") ("m0") (("q").data)
         (("sel").data) ("nt") ("um")
       = ((tmSendC9, "S"), Except.ok ()) ∧
     sendMessageRun tmSendC9 ("nope") (("q").data) ("u") ("a") []
         StreamTerminal.completed []
       = (tmSendC9, Except.ok ())) :=
  ⟨by decide,
   c8_missing_source_is_silent_noop tmSendC9 ("S") ("nope") ("m0") ("nt") ("wm")
     ("um") (("q").data) (("sel").data) (("q").data) ("u") ("a") []
     StreamTerminal.completed [] (by decide)⟩

end DeepThink
